import Mathlib

/-!
Shallow embedding of the `rttm-rs` crate (files `src/segment.rs`, `src/rttm.rs`,
`src/errors.rs`).

Modelling conventions:
* Rust `String` / `&str` values are modelled as `List Char` (`Str`); `str::split(' ')`
  is modelled by `splitOnChar`, and `format!` joining with single spaces by `joinSp`.
* Rust `f64` values are modelled as exact rationals `ℚ`.  All `f64` values that the
  program can hold are dyadic rationals, hence have a finite decimal expansion; the
  `Display`/`FromStr` round-trip guarantee of `f64` is reflected by an exact decimal
  printer (`fshow`) and an exact decimal parser (`parseFloat`) over `ℚ`.  Non-finite
  floats (`inf`, `NaN`) are outside this rational model.
* Rust `usize` is modelled as `ℕ` with the `usize::MAX` overflow bound `2 ^ 64`
  made explicit where the source can overflow (integer parsing).
* `Vec<RttmSegment>` is modelled as `List RttmSegment`; `Vec::remove` is rendered
  by `List.eraseIdx` together with the returned element.
* Fallible operations return `Option`/`Except`; a Rust panic is modelled as `none`.
-/

/-- Rust string contents, as a list of characters. -/
abbrev Str := List Char

/-- Model of Rust `str::split(c)`: split on every occurrence of the single
character `c`, keeping empty pieces (no collapsing, no trimming); the empty
string yields one empty piece, exactly as in Rust. -/
def splitOnChar (c : Char) : Str → List Str
  | [] => [[]]
  | x :: xs =>
    if x = c then [] :: splitOnChar c xs
    else
      match splitOnChar c xs with
      | r :: rs => (x :: r) :: rs
      | [] => [[x]]

/-- Model of joining pieces with a single space, as done by the `format!`
string template `"{} {} {} {} {} {} {} {} {} {}"` in `RttmSegment::to_string`. -/
def joinSp : List Str → Str
  | [] => []
  | [s] => s
  | s :: rest => s ++ ' ' :: joinSp rest

/-- Numeric value of an ASCII digit character. -/
def charVal (c : Char) : ℕ := c.toNat - 48

/-- ASCII digit character for a value below ten. -/
def digitChar (d : ℕ) : Char := Char.ofNat (48 + d)

/-- Decimal value of a digit string, accumulating left to right. -/
def digitsVal (s : Str) : ℕ := s.foldl (fun a c => 10 * a + charVal c) 0

/-- Decimal representation of a natural number, as produced by Rust's
`Display` for unsigned integers. -/
def natRepr (n : ℕ) : Str :=
  if n = 0 then ['0'] else ((Nat.digits 10 n).map digitChar).reverse

/-- Model of the digit-run acceptance of Rust `usize::from_str`: a non-empty
string of ASCII digits, with the `usize::MAX` overflow bound made explicit
(Rust reports `PosOverflow`, modelled as `none`). -/
def parseUsizeDigits (ds : Str) : Option ℕ :=
  if ds ≠ [] ∧ ds.all Char.isDigit then
    if digitsVal ds < 2 ^ 64 then some (digitsVal ds) else none
  else none

/-- Model of Rust `usize::from_str` (`value.parse::<usize>()` in
`RttmSegment::from_str`): an optional leading `+` sign followed by a non-empty
digit run; a `-` sign or any other character fails. -/
def parseUsize (s : Str) : Option ℕ :=
  match s with
  | [] => none
  | c :: rest => if c = '+' then parseUsizeDigits rest else parseUsizeDigits s

/-- Exponent digit run of a float literal: non-empty, all digits. -/
def parseExpDigits (ds : Str) : Option ℕ :=
  if ds ≠ [] ∧ ds.all Char.isDigit then some (digitsVal ds) else none

/-- Exponent part of a float literal, after the `e`/`E` marker: optional sign,
then a non-empty digit run. -/
def parseExp (s : Str) : Option ℤ :=
  match s with
  | [] => none
  | c :: rest =>
    if c = '+' then (parseExpDigits rest).map (fun n => (n : ℤ))
    else if c = '-' then (parseExpDigits rest).map (fun n => -(n : ℤ))
    else (parseExpDigits s).map (fun n => (n : ℤ))

/-- Mantissa of a float literal: an optional integer digit run, an optional
decimal point and fractional digit run, with at least one digit overall;
the exact rational value is returned. -/
def parseMantissa (s : Str) : Option ℚ :=
  match s.span Char.isDigit with
  | (intD, []) => if intD = [] then none else some (digitsVal intD : ℚ)
  | (intD, c :: rest) =>
    if c = '.' then
      if (intD ≠ [] ∨ rest ≠ []) ∧ rest.all Char.isDigit then
        some ((digitsVal (intD ++ rest) : ℚ) / 10 ^ rest.length)
      else none
    else none

/-- Unsigned float literal: mantissa, optionally followed by `e`/`E` and an
exponent, valued exactly in `ℚ`. -/
def parseUnsigned (s : Str) : Option ℚ :=
  match s.span (fun c => !(c == 'e') && !(c == 'E')) with
  | (mant, []) => parseMantissa mant
  | (mant, _ :: expRest) =>
    match parseMantissa mant, parseExp expRest with
    | some v, some e => some (v * 10 ^ e)
    | _, _ => none

/-- Model of Rust `f64::from_str` (`value.parse::<f64>()` in
`RttmSegment::from_str`), restricted to finite decimal literals: optional
sign, mantissa, optional exponent, valued exactly in `ℚ`.  The non-finite
literals `inf`/`infinity`/`nan` accepted by Rust have no rational value and
are outside this model. -/
def parseFloat (s : Str) : Option ℚ :=
  match s with
  | [] => none
  | c :: rest =>
    if c = '+' then parseUnsigned rest
    else if c = '-' then (parseUnsigned rest).map (fun v => -v)
    else parseUnsigned s

/-- Smallest exponent `k` (searched up to 1200, enough for every `f64`) with
`d ∣ 10 ^ k`; `none` when the denominator is not of the form `2^a * 5^b`. -/
def tenExp (d : ℕ) : Option ℕ := (List.range 1200).find? (fun k => 10 ^ k % d == 0)

/-- Decimal rendering of the non-negative rational `m / 10 ^ k`: integer part,
then (for `k > 0`) a point and exactly `k` fractional digits, zero-padded. -/
def fshowNat (m k : ℕ) : Str :=
  if k = 0 then natRepr m
  else
    natRepr (m / 10 ^ k) ++
      '.' :: (List.replicate (k - (natRepr (m % 10 ^ k)).length) '0' ++ natRepr (m % 10 ^ k))

/-- Model of Rust `Display` for the `f64` values held by a segment: an exact
finite decimal rendering (sign, integer part, fractional part).  Rust prints
the shortest decimal that reparses to the same `f64`; the model prints an
exact decimal for the rational, which reparses to the same rational — the
same round-trip contract. -/
def fshow (q : ℚ) : Str :=
  let k := (tenExp q.den).getD 0
  let m := q.num.natAbs * (10 ^ k / q.den)
  if q < 0 then '-' :: fshowNat m k else fshowNat m k

/-- Model of the `RttmError` enum of `src/errors.rs`.  The payloads of
`IOError`, `ParseFloatError` and `ParseIntError` are opaque platform error
values; the model keeps an opaque numeric cause for `IOError` (used by
`Rttm::read`) and drops the opaque parse-error payloads. -/
inductive RttmError where
  | SegmentAlignmentError (index : ℕ)
  | IOError (cause : ℕ)
  | ParseFloatError
  | ParseIntError
deriving DecidableEq, Repr

/-- Model of the `RttmSegment` struct of `src/segment.rs`: ten fields, with
`String` fields as `Str`, `usize` as `ℕ` and `f64` as `ℚ`. -/
structure RttmSegment where
  segment_type : Str
  file_id : Str
  channel_id : ℕ
  turn_onset : ℚ
  turn_duration : ℚ
  orthography_field : Str
  speaker_type : Str
  speaker_name : Str
  confidence_score : Str
  signal_lookahead_time : Str
deriving DecidableEq, Repr

/-- Model of Rust `RttmSegment::default()`: empty strings, zero numbers. -/
def RttmSegment.defaultSeg : RttmSegment := ⟨[], [], 0, 0, 0, [], [], [], [], []⟩

instance : Inhabited RttmSegment := ⟨RttmSegment.defaultSeg⟩

namespace RttmSegment

/-- One iteration of the `match i` in `RttmSegment::from_str`: assign the
`i`-th space-separated field, parsing fields 2, 3, 4 as numbers, and fail
with `SegmentAlignmentError (i + 1)` from the eleventh field on. -/
def applyField (seg : RttmSegment) (i : ℕ) (v : Str) : Except RttmError RttmSegment :=
  match i with
  | 0 => .ok { seg with segment_type := v }
  | 1 => .ok { seg with file_id := v }
  | 2 =>
    match parseUsize v with
    | some n => .ok { seg with channel_id := n }
    | none => .error .ParseIntError
  | 3 =>
    match parseFloat v with
    | some q => .ok { seg with turn_onset := q }
    | none => .error .ParseFloatError
  | 4 =>
    match parseFloat v with
    | some q => .ok { seg with turn_duration := q }
    | none => .error .ParseFloatError
  | 5 => .ok { seg with orthography_field := v }
  | 6 => .ok { seg with speaker_type := v }
  | 7 => .ok { seg with speaker_name := v }
  | 8 => .ok { seg with confidence_score := v }
  | 9 => .ok { seg with signal_lookahead_time := v }
  | i => .error (.SegmentAlignmentError (i + 1))

/-- The enumerated `for` loop of `RttmSegment::from_str`, threading the
segment being built through `applyField` and stopping at the first error. -/
def fromStrGo (seg : RttmSegment) (i : ℕ) : List Str → Except RttmError RttmSegment
  | [] => .ok seg
  | v :: rest =>
    match applyField seg i v with
    | .ok s => fromStrGo s (i + 1) rest
    | .error e => .error e

/-- Model of `RttmSegment::from_str`: start from the default segment, split
the line on single spaces and assign the pieces positionally. -/
def from_str (value : Str) : Except RttmError RttmSegment :=
  fromStrGo defaultSeg 0 (splitOnChar ' ' value)

/-- Model of `RttmSegment::to_string`: the ten fields rendered and joined by
single spaces, in field order. -/
def to_string (s : RttmSegment) : Str :=
  joinSp [s.segment_type, s.file_id, natRepr s.channel_id, fshow s.turn_onset,
    fshow s.turn_duration, s.orthography_field, s.speaker_type, s.speaker_name,
    s.confidence_score, s.signal_lookahead_time]

/-- Model of `RttmSegment::timespan`: start and end in seconds. -/
def timespan (s : RttmSegment) : ℚ × ℚ :=
  (s.turn_onset, s.turn_onset + s.turn_duration)

/-- Model of Rust `f64::round`: round half away from zero, on the rational
model of `f64`. -/
def rustRound (q : ℚ) : ℤ := if 0 ≤ q then ⌊q + 1 / 2⌋ else ⌈q - 1 / 2⌉

/-- Model of `RttmSegment::timespan_ms`: start and end in milliseconds,
each second-value multiplied by 1000 and rounded with `f64::round`. -/
def timespan_ms (s : RttmSegment) : ℤ × ℤ :=
  (rustRound (1000 * s.turn_onset), rustRound (1000 * (s.turn_onset + s.turn_duration)))

/-- Model of `std::time::Duration::from_secs_f64` on the rational model of
`f64`, as total nanoseconds: panics (`none`) on a negative value or on
overflow of the 64-bit seconds part; otherwise rounds to the nearest
nanosecond (Rust breaks half-nanosecond ties to even; the claims never
exercise a tie). -/
def durationNanos (d : ℚ) : Option ℕ :=
  if 0 ≤ d ∧ d < 2 ^ 64 then some (round (d * 10 ^ 9)).toNat else none

/-- Model of `RttmSegment::duration().as_millis()`: total nanoseconds of the
`Duration` divided by one million with truncation; `none` models the panic
of `Duration::from_secs_f64`. -/
def milliseconds (s : RttmSegment) : Option ℕ :=
  (durationNanos s.turn_duration).map (fun n => n / 1000000)

end RttmSegment

namespace Rttm

/-- Model of `Rttm::read` after the file is opened: the `BufReader::lines`
iterator is a list of per-line results (`Except.error` is an I/O-level read
fault with an opaque cause).  With `continue_on_error` a faulty line is
skipped; otherwise the fault propagates as `IOError`.  Each read line is
parsed with `RttmSegment::from_str`; a parse error always propagates.
The source pushes each parsed segment onto a `Vec` and continues; the model
renders this as consing onto the result of reading the remaining lines. -/
def read (continue_on_error : Bool) :
    List (Except ℕ Str) → Except RttmError (List RttmSegment)
  | [] => .ok []
  | lr :: rest =>
    match lr with
    | .error e => if continue_on_error then read continue_on_error rest
                  else .error (.IOError e)
    | .ok line =>
      match RttmSegment.from_str line with
      | .error pe => .error pe
      | .ok seg => (read continue_on_error rest).map (fun segs => seg :: segs)

/-- Model of `Rttm::add`: append a copy of the segment at the end. -/
def add (segs : List RttmSegment) (seg : RttmSegment) : List RttmSegment :=
  segs ++ [seg]

/-- Model of `Rttm::pop`: remove and return the last segment. -/
def pop (segs : List RttmSegment) : Option RttmSegment × List RttmSegment :=
  match segs.getLast? with
  | some seg => (some seg, segs.dropLast)
  | none => (none, segs)

/-- Model of `Rttm::del`: if `index` is in bounds, remove and return the
segment there (`Vec::remove`, which shifts later elements down); otherwise
return `none` and leave the list unchanged. -/
def del (segs : List RttmSegment) (index : ℕ) : Option RttmSegment × List RttmSegment :=
  match segs[index]? with
  | some seg => (some seg, segs.eraseIdx index)
  | none => (none, segs)

/-- Lexicographic order on strings by character code, the order Rust uses to
`sort` a `Vec<&str>` (UTF-8 byte order coincides with code-point order). -/
def strLe : Str → Str → Bool
  | [], _ => true
  | _ :: _, [] => false
  | a :: as, b :: bs =>
    if a.toNat < b.toNat then true
    else if b.toNat < a.toNat then false
    else strLe as bs

/-- Model of `Rttm::speakers`: the distinct speaker names (the `HashSet`
collect) sorted lexicographically.  `List.dedup` supplies the distinct
names; sorting the deduplicated names yields the same sorted list the
source produces from the hash set. -/
def speakers (segs : List RttmSegment) : List Str :=
  ((segs.map (fun s => s.speaker_name)).dedup).mergeSort strLe

/-- Model of `Rttm::num_speakers`: the size of the `HashSet` of names,
i.e. the number of distinct speaker names. -/
def num_speakers (segs : List RttmSegment) : ℕ :=
  ((segs.map (fun s => s.speaker_name)).dedup).length

/-- Model of `Rttm::find`: first segment with the given speaker name. -/
def find (segs : List RttmSegment) (speaker : Str) : Option RttmSegment :=
  segs.find? (fun s => s.speaker_name == speaker)

/-- Model of `Rttm::filter`: the segments whose speaker name equals the
argument exactly, in order, as copies. -/
def filter (segs : List RttmSegment) (speaker : Str) : List RttmSegment :=
  segs.filter (fun s => s.speaker_name == speaker)

/-- Model of `Rttm::duration_speaker`: sum of `turn_duration` over the
segments with the given speaker name. -/
def duration_speaker (segs : List RttmSegment) (speaker : Str) : ℚ :=
  (segs.filterMap (fun s =>
    if s.speaker_name = speaker then some s.turn_duration else none)).sum

/-- Model of `Rttm::duration_total`: sum of `turn_duration` over all
segments. -/
def duration_total (segs : List RttmSegment) : ℚ :=
  (segs.map (fun s => s.turn_duration)).sum

end Rttm

/-- Well-typedness of the numeric fields among the split pieces of a line:
whenever a piece sits at index 2 (channel), 3 (onset) or 4 (duration), it
parses under the corresponding numeric parser. -/
def NumericOk (L : List Str) : Prop :=
  (∀ v, L[2]? = some v → (parseUsize v).isSome = true) ∧
  (∀ v, L[3]? = some v → (parseFloat v).isSome = true) ∧
  (∀ v, L[4]? = some v → (parseFloat v).isSome = true)

/-- The fields of a segment from position `n` on hold their `Default`
values (empty strings, zero numbers). -/
def defaultFrom (s : RttmSegment) (n : ℕ) : Prop :=
  (n ≤ 0 → s.segment_type = []) ∧
  (n ≤ 1 → s.file_id = []) ∧
  (n ≤ 2 → s.channel_id = 0) ∧
  (n ≤ 3 → s.turn_onset = 0) ∧
  (n ≤ 4 → s.turn_duration = 0) ∧
  (n ≤ 5 → s.orthography_field = []) ∧
  (n ≤ 6 → s.speaker_type = []) ∧
  (n ≤ 7 → s.speaker_name = []) ∧
  (n ≤ 8 → s.confidence_score = []) ∧
  (n ≤ 9 → s.signal_lookahead_time = [])

/-! Helper lemmas about characters and decimal digit strings. -/

theorem charVal_digitChar {d : ℕ} (h : d < 10) : charVal (digitChar d) = d := by
  interval_cases d <;> decide

theorem isDigit_digitChar {d : ℕ} (h : d < 10) : (digitChar d).isDigit = true := by
  interval_cases d <;> decide

theorem natRepr_all_digit (n : ℕ) : ∀ c ∈ natRepr n, c.isDigit = true := by
  intro c hc
  unfold natRepr at hc
  split at hc
  · simp only [List.mem_singleton] at hc
    subst hc; decide
  · simp only [List.mem_reverse, List.mem_map] at hc
    obtain ⟨d, hd, rfl⟩ := hc
    exact isDigit_digitChar (Nat.digits_lt_base (by norm_num) hd)

theorem natRepr_ne_nil (n : ℕ) : natRepr n ≠ [] := by
  unfold natRepr
  split
  · simp
  · simp [Nat.digits_ne_nil_iff_ne_zero, *]

theorem digitsVal_foldl (s : Str) (x : ℕ) :
    s.foldl (fun a c => 10 * a + charVal c) x = x * 10 ^ s.length + digitsVal s := by
  induction s generalizing x with
  | nil => simp [digitsVal]
  | cons c s ih =>
    simp only [List.foldl_cons, digitsVal, List.length_cons]
    rw [ih, ih (10 * 0 + charVal c)]
    ring

theorem digitsVal_append (a b : Str) :
    digitsVal (a ++ b) = digitsVal a * 10 ^ b.length + digitsVal b := by
  simp only [digitsVal, List.foldl_append]
  exact digitsVal_foldl b (digitsVal a)

theorem digitsVal_replicate_zero (j : ℕ) : digitsVal (List.replicate j '0') = 0 := by
  induction j with
  | zero => rfl
  | succ j ih =>
    simp only [List.replicate_succ, digitsVal, List.foldl_cons] at ih ⊢
    simpa using ih

theorem foldr_digits_ofDigits (L : List ℕ) (hL : ∀ d ∈ L, d < 10) :
    (L.map digitChar).foldr (fun c a => 10 * a + charVal c) 0 = Nat.ofDigits 10 L := by
  induction L with
  | nil => simp [Nat.ofDigits_nil]
  | cons d L ih =>
    simp only [List.map_cons, List.foldr_cons, Nat.ofDigits_cons]
    rw [ih (fun x hx => hL x (List.mem_cons_of_mem d hx)),
      charVal_digitChar (hL d (List.mem_cons_self d L))]
    ring

theorem digitsVal_natRepr (n : ℕ) : digitsVal (natRepr n) = n := by
  unfold natRepr
  split
  · subst ‹n = 0›; decide
  · rw [digitsVal, List.foldl_reverse]
    have := foldr_digits_ofDigits (Nat.digits 10 n)
      (fun d hd => Nat.digits_lt_base (by norm_num) hd)
    simpa [this] using Nat.ofDigits_digits 10 n

theorem natRepr_length_le {n k : ℕ} (hk : 1 ≤ k) (h : n < 10 ^ k) :
    (natRepr n).length ≤ k := by
  unfold natRepr
  split
  · simpa using hk
  · simp only [List.length_reverse, List.length_map]
    rw [Nat.digits_len 10 n (by norm_num) ‹n ≠ 0›]
    have : Nat.log 10 n < k := Nat.log_lt_of_lt_pow ‹n ≠ 0› h
    omega

/-! Helper lemmas about span, split and join. -/

theorem takeWhile_append_cons {α : Type} {p : α → Bool} {A : List α}
    (hA : ∀ x ∈ A, p x = true) {c : α} (hc : p c = false) (B : List α) :
    (A ++ c :: B).takeWhile p = A := by
  induction A with
  | nil => simp [List.takeWhile_cons, hc]
  | cons a A ih =>
    have ha : p a = true := hA a (List.mem_cons_self a A)
    simp [List.takeWhile_cons, ha, ih (fun x hx => hA x (List.mem_cons_of_mem a hx))]

theorem dropWhile_append_cons {α : Type} {p : α → Bool} {A : List α}
    (hA : ∀ x ∈ A, p x = true) {c : α} (hc : p c = false) (B : List α) :
    (A ++ c :: B).dropWhile p = c :: B := by
  induction A with
  | nil => simp [List.dropWhile_cons, hc]
  | cons a A ih =>
    have ha : p a = true := hA a (List.mem_cons_self a A)
    simp only [List.cons_append, List.dropWhile_cons, ha]
    exact ih (fun x hx => hA x (List.mem_cons_of_mem a hx))

theorem span_append_cons {α : Type} {p : α → Bool} {A : List α}
    (hA : ∀ x ∈ A, p x = true) {c : α} (hc : p c = false) (B : List α) :
    (A ++ c :: B).span p = (A, c :: B) := by
  rw [List.span_eq_take_drop, takeWhile_append_cons hA hc B, dropWhile_append_cons hA hc B]

theorem span_all {α : Type} {p : α → Bool} {l : List α} (h : ∀ x ∈ l, p x = true) :
    l.span p = (l, []) := by
  rw [List.span_eq_take_drop, List.takeWhile_eq_self_iff.2 h, List.dropWhile_eq_nil_iff.2 h]

theorem splitOnChar_not_mem {c : Char} {s : Str} (h : c ∉ s) : splitOnChar c s = [s] := by
  induction s with
  | nil => rfl
  | cons x xs ih =>
    have hx : ¬x = c := fun hh => h (hh ▸ List.mem_cons_self x xs)
    rw [splitOnChar, if_neg hx, ih (fun hh => h (List.mem_cons_of_mem x hh))]

theorem splitOnChar_append {c : Char} {a t : Str} (h : c ∉ a) :
    splitOnChar c (a ++ c :: t) = a :: splitOnChar c t := by
  induction a with
  | nil => simp [splitOnChar]
  | cons x xs ih =>
    have hx : ¬x = c := fun hh => h (hh ▸ List.mem_cons_self x xs)
    rw [List.cons_append, splitOnChar, if_neg hx,
      ih (fun hh => h (List.mem_cons_of_mem x hh))]

theorem splitOnChar_joinSp {ps : List Str} (h : ps ≠ [])
    (hns : ∀ p ∈ ps, ' ' ∉ p) : splitOnChar ' ' (joinSp ps) = ps := by
  induction ps with
  | nil => exact absurd rfl h
  | cons s rest ih =>
    cases rest with
    | nil => exact splitOnChar_not_mem (hns s (List.mem_cons_self s []))
    | cons s2 rest2 =>
      have hj : joinSp (s :: s2 :: rest2) = s ++ ' ' :: joinSp (s2 :: rest2) := rfl
      rw [hj, splitOnChar_append (hns s (List.mem_cons_self s _)),
        ih (List.cons_ne_nil s2 rest2) (fun p hp => hns p (List.mem_cons_of_mem s hp))]

/-! Helper lemmas about the numeric parsers and printers. -/

theorem isDigit_ne {c : Char} (h : c.isDigit = true) :
    c ≠ ' ' ∧ c ≠ '.' ∧ c ≠ '+' ∧ c ≠ '-' ∧ c ≠ 'e' ∧ c ≠ 'E' := by
  refine ⟨?_, ?_, ?_, ?_, ?_, ?_⟩ <;> (rintro rfl; revert h; decide)

theorem natRepr_no_space (n : ℕ) : ' ' ∉ natRepr n := by
  intro hmem
  exact (isDigit_ne (natRepr_all_digit n _ hmem)).1 rfl

theorem fshowNat_classified (m k : ℕ) :
    ∀ c ∈ fshowNat m k, c.isDigit = true ∨ c = '.' := by
  intro c hc
  unfold fshowNat at hc
  split at hc
  · exact Or.inl (natRepr_all_digit m c hc)
  · simp only [List.mem_append, List.mem_cons] at hc
    rcases hc with h1 | h2 | h3
    · exact Or.inl (natRepr_all_digit _ c h1)
    · exact Or.inr h2
    · rcases h3 with h4 | h5
      · have : c = '0' := List.eq_of_mem_replicate h4
        subst this; exact Or.inl (by decide)
      · exact Or.inl (natRepr_all_digit _ c h5)

theorem fshowNat_head (m k : ℕ) :
    ∃ c t, fshowNat m k = c :: t ∧ c.isDigit = true := by
  unfold fshowNat
  split
  · obtain ⟨c, t, hct⟩ := List.exists_cons_of_ne_nil (natRepr_ne_nil m)
    exact ⟨c, t, hct, natRepr_all_digit m c (hct ▸ List.mem_cons_self c t)⟩
  · obtain ⟨c, t, hct⟩ := List.exists_cons_of_ne_nil (natRepr_ne_nil (m / 10 ^ k))
    refine ⟨c, t ++ '.' :: (List.replicate (k - (natRepr (m % 10 ^ k)).length) '0' ++
      natRepr (m % 10 ^ k)), by rw [hct]; rfl,
      natRepr_all_digit _ c (hct ▸ List.mem_cons_self c t)⟩

theorem fshow_no_space (q : ℚ) : ' ' ∉ fshow q := by
  intro hmem
  unfold fshow at hmem
  have hbody : ∀ c ∈ fshowNat (q.num.natAbs * (10 ^ (tenExp q.den).getD 0 / q.den))
      ((tenExp q.den).getD 0), c ≠ ' ' := by
    intro c hc
    rcases fshowNat_classified _ _ c hc with hd | hdot
    · exact (isDigit_ne hd).1
    · subst hdot; decide
  split at hmem
  · rcases List.mem_cons.1 hmem with h1 | h2
    · exact absurd h1.symm (by decide)
    · exact hbody ' ' h2 rfl
  · exact hbody ' ' hmem rfl

theorem parseMantissa_fshowNat (m k : ℕ) :
    parseMantissa (fshowNat m k) = some ((m : ℚ) / 10 ^ k) := by
  rcases Nat.eq_zero_or_pos k with hk | hk
  · subst hk
    unfold parseMantissa fshowNat
    rw [if_pos rfl, span_all (natRepr_all_digit m)]
    simp [natRepr_ne_nil m, digitsVal_natRepr]
  · have hkne : k ≠ 0 := Nat.pos_iff_ne_zero.1 hk
    have hfr : m % 10 ^ k < 10 ^ k := Nat.mod_lt m (by positivity)
    have hlen : (natRepr (m % 10 ^ k)).length ≤ k := natRepr_length_le hk hfr
    set frD : Str := List.replicate (k - (natRepr (m % 10 ^ k)).length) '0' ++
      natRepr (m % 10 ^ k) with hfrD
    have hfrDlen : frD.length = k := by
      rw [hfrD, List.length_append, List.length_replicate]
      omega
    have hfrDall : ∀ c ∈ frD, c.isDigit = true := by
      intro c hc
      rcases List.mem_append.1 hc with h4 | h5
      · have : c = '0' := List.eq_of_mem_replicate h4
        subst this; decide
      · exact natRepr_all_digit _ c h5
    have hfrDval : digitsVal frD = m % 10 ^ k := by
      rw [hfrD, digitsVal_append, digitsVal_replicate_zero, digitsVal_natRepr]
      ring
    have hshow : fshowNat m k = natRepr (m / 10 ^ k) ++ '.' :: frD := by
      rw [fshowNat, if_neg hkne]
    rw [hshow]
    unfold parseMantissa
    rw [span_append_cons (natRepr_all_digit _) (by decide) frD]
    have hcond : (natRepr (m / 10 ^ k) ≠ [] ∨ frD ≠ []) ∧ frD.all Char.isDigit := by
      refine ⟨Or.inl (natRepr_ne_nil _), List.all_eq_true.2 hfrDall⟩
    simp only [if_pos rfl, hcond, and_self, if_true]
    rw [digitsVal_append, hfrDval, hfrDlen, digitsVal_natRepr]
    have hm : m / 10 ^ k * 10 ^ k + m % 10 ^ k = m := by
      rw [Nat.mul_comm]
      exact Nat.div_add_mod m (10 ^ k)
    rw [hm]

theorem parseUnsigned_fshowNat (m k : ℕ) :
    parseUnsigned (fshowNat m k) = some ((m : ℚ) / 10 ^ k) := by
  unfold parseUnsigned
  rw [span_all (p := fun c => !(c == 'e') && !(c == 'E'))]
  · exact parseMantissa_fshowNat m k
  · intro c hc
    rcases fshowNat_classified m k c hc with hd | hdot
    · have h6 := isDigit_ne hd
      simp [h6.2.2.2.2.1, h6.2.2.2.2.2]
    · subst hdot; decide

theorem tenExp_dvd {d k : ℕ} (h : tenExp d = some k) : d ∣ 10 ^ k := by
  have hp := List.find?_some h
  simp only [beq_iff_eq] at hp
  exact Nat.dvd_of_mod_eq_zero hp

theorem fshow_abs_value {q : ℚ} {k : ℕ} (h : tenExp q.den = some k) :
    ((q.num.natAbs * (10 ^ k / q.den) : ℕ) : ℚ) / 10 ^ k = |q| := by
  have hdvd : q.den ∣ 10 ^ k := tenExp_dvd h
  have htden : 10 ^ k / q.den * q.den = 10 ^ k := Nat.div_mul_cancel hdvd
  have habs : |q| = |(q.num : ℚ)| / (q.den : ℚ) := by
    rw [← abs_of_pos (show (0 : ℚ) < (q.den : ℚ) by positivity), ← abs_div,
      Rat.num_div_den]
  rw [habs, div_eq_div_iff (by positivity) (by positivity)]
  have hnat : q.num.natAbs * (10 ^ k / q.den) * q.den = q.num.natAbs * 10 ^ k := by
    rw [Nat.mul_assoc, htden]
  have hcast := congrArg (fun x : ℕ => (x : ℚ)) hnat
  push_cast [Int.cast_natAbs] at hcast ⊢
  linear_combination hcast

theorem parseFloat_fshow {q : ℚ} {k : ℕ} (h : tenExp q.den = some k) :
    parseFloat (fshow q) = some q := by
  have hval := fshow_abs_value h
  unfold fshow
  rw [h]
  simp only [Option.getD_some]
  by_cases hneg : q < 0
  · rw [if_pos hneg]
    have hred : parseFloat ('-' :: fshowNat (q.num.natAbs * (10 ^ k / q.den)) k) =
        (parseUnsigned (fshowNat (q.num.natAbs * (10 ^ k / q.den)) k)).map
          (fun v => -v) := by
      rfl
    rw [hred, parseUnsigned_fshowNat]
    have hmap : (some (((q.num.natAbs * (10 ^ k / q.den) : ℕ) : ℚ) / 10 ^ k)).map
        (fun v : ℚ => -v) =
        some (-(((q.num.natAbs * (10 ^ k / q.den) : ℕ) : ℚ) / 10 ^ k)) := rfl
    rw [hmap, hval, abs_of_neg hneg, neg_neg]
  · rw [if_neg hneg]
    obtain ⟨c, t, hEq, hdig⟩ := fshowNat_head (q.num.natAbs * (10 ^ k / q.den)) k
    have hne := isDigit_ne hdig
    rw [hEq]
    have hred : parseFloat (c :: t) = (if c = '+' then parseUnsigned t
        else if c = '-' then (parseUnsigned t).map (fun v => -v)
        else parseUnsigned (c :: t)) := rfl
    rw [hred, if_neg hne.2.2.1, if_neg hne.2.2.2.1, ← hEq, parseUnsigned_fshowNat,
      hval, abs_of_nonneg (not_lt.1 hneg)]

theorem parseUsize_natRepr {n : ℕ} (h : n < 2 ^ 64) : parseUsize (natRepr n) = some n := by
  obtain ⟨c, t, hEq⟩ := List.exists_cons_of_ne_nil (natRepr_ne_nil n)
  have hdig := natRepr_all_digit n c (hEq ▸ List.mem_cons_self c t)
  rw [hEq]
  have hred : parseUsize (c :: t) = (if c = '+' then parseUsizeDigits t
      else parseUsizeDigits (c :: t)) := rfl
  rw [hred, if_neg (isDigit_ne hdig).2.2.1, ← hEq]
  unfold parseUsizeDigits
  rw [if_pos ⟨natRepr_ne_nil n, List.all_eq_true.2 (natRepr_all_digit n)⟩,
    digitsVal_natRepr, if_pos h]

/-- C1: for every Segment whose ten fields' text representations contain no
space character, serializing with `to_string` and then parsing with
`from_str` yields the original segment, field for field.  The numeric side
conditions render the Rust typehood of those fields in the rational model:
`channel_id` fits in `usize`, and the two `f64` fields have finite decimal
representations, which every finite `f64` has. -/
theorem claim_C1 (s : RttmSegment)
    (h0 : ' ' ∉ s.segment_type) (h1 : ' ' ∉ s.file_id)
    (h5 : ' ' ∉ s.orthography_field) (h6 : ' ' ∉ s.speaker_type)
    (h7 : ' ' ∉ s.speaker_name) (h8 : ' ' ∉ s.confidence_score)
    (h9 : ' ' ∉ s.signal_lookahead_time)
    (hch : s.channel_id < 2 ^ 64)
    (hon : (tenExp s.turn_onset.den).isSome = true)
    (hdu : (tenExp s.turn_duration.den).isSome = true) :
    RttmSegment.from_str (RttmSegment.to_string s) = Except.ok s := by
  obtain ⟨ko, hko⟩ := Option.isSome_iff_exists.mp hon
  obtain ⟨kd, hkd⟩ := Option.isSome_iff_exists.mp hdu
  have hpieces : ∀ p ∈ [s.segment_type, s.file_id, natRepr s.channel_id,
      fshow s.turn_onset, fshow s.turn_duration, s.orthography_field,
      s.speaker_type, s.speaker_name, s.confidence_score,
      s.signal_lookahead_time], ' ' ∉ p := by
    intro p hp
    simp only [List.mem_cons, List.not_mem_nil, or_false] at hp
    rcases hp with rfl | rfl | rfl | rfl | rfl | rfl | rfl | rfl | rfl | rfl
    exacts [h0, h1, natRepr_no_space s.channel_id, fshow_no_space s.turn_onset,
      fshow_no_space s.turn_duration, h5, h6, h7, h8, h9]
  unfold RttmSegment.to_string RttmSegment.from_str
  rw [splitOnChar_joinSp (List.cons_ne_nil _ _) hpieces]
  simp only [RttmSegment.fromStrGo, RttmSegment.applyField, parseUsize_natRepr hch,
    parseFloat_fshow hko, parseFloat_fshow hkd]

set_option maxRecDepth 4000 in
/-- Witness for C1: the round-trip theorem applied to a concrete segment. -/
theorem claim_C1_witness :
    RttmSegment.from_str (RttmSegment.to_string
      ⟨"SPEAKER".toList, "rec1".toList, 1, mkRat 3 2, mkRat 5 2,
        "<NA>".toList, "<NA>".toList, "spk01".toList,
        "<NA>".toList, "<NA>".toList⟩) =
    Except.ok ⟨"SPEAKER".toList, "rec1".toList, 1, mkRat 3 2, mkRat 5 2,
        "<NA>".toList, "<NA>".toList, "spk01".toList,
        "<NA>".toList, "<NA>".toList⟩ :=
  claim_C1 _ (by decide) (by decide) (by decide) (by decide) (by decide)
    (by decide) (by decide) (by decide) (by decide) (by decide)

/-- C2 counterexample: an eleven-field line whose third field is not numeric
makes `from_str` fail with `ParseIntError` at field index 2, not with the
`SegmentAlignmentError 11` the claim promises for every line of more than
ten fields. -/
theorem claim_C2_counterexample :
    (splitOnChar ' ' ("x x x x x x x x x x x".toList)).length = 11 ∧
    RttmSegment.from_str ("x x x x x x x x x x x".toList) =
      Except.error RttmError.ParseIntError ∧
    RttmError.ParseIntError ≠ RttmError.SegmentAlignmentError 11 := by
  refine ⟨by decide, by rfl, by decide⟩

/-- C2 (amended with the well-typedness proviso extended to every case): for
a line splitting into exactly 10 fields whose numeric fields parse,
`from_str` returns `Ok`; for a line splitting into more than 10 fields whose
numeric fields parse, `from_str` fails with `SegmentAlignmentError 11`, the
1-based position of the first surplus field; for a line splitting into fewer
than 10 fields whose numeric fields (among those present) parse, `from_str`
returns `Ok` with the missing trailing fields at their default values. -/
theorem claim_C2 :
    (∀ line L, splitOnChar ' ' line = L → L.length = 10 → NumericOk L →
      ∃ s, RttmSegment.from_str line = Except.ok s) ∧
    (∀ line L, splitOnChar ' ' line = L → 10 < L.length → NumericOk L →
      RttmSegment.from_str line = Except.error (RttmError.SegmentAlignmentError 11)) ∧
    (∀ line L, splitOnChar ' ' line = L → L.length < 10 → NumericOk L →
      ∃ s, RttmSegment.from_str line = Except.ok s ∧ defaultFrom s L.length) := by
  refine ⟨?_, ?_, ?_⟩ <;> intro line L hsplit hlen hnum <;>
    rw [RttmSegment.from_str, hsplit] <;>
    rcases L with _ | ⟨a, _ | ⟨b, _ | ⟨c, _ | ⟨d, _ | ⟨e, _ | ⟨f, _ | ⟨g, _ |
      ⟨h1, _ | ⟨i1, _ | ⟨j1, rest⟩⟩⟩⟩⟩⟩⟩⟩⟩⟩ <;>
    simp only [List.length_nil, List.length_cons] at hlen <;>
    try omega
  · -- exactly ten fields
    obtain ⟨n, hn⟩ := Option.isSome_iff_exists.mp (hnum.1 c rfl)
    obtain ⟨x, hx⟩ := Option.isSome_iff_exists.mp (hnum.2.1 d rfl)
    obtain ⟨y, hy⟩ := Option.isSome_iff_exists.mp (hnum.2.2 e rfl)
    cases rest with
    | nil =>
      refine ⟨⟨a, b, n, x, y, f, g, h1, i1, j1⟩, ?_⟩
      simp [RttmSegment.fromStrGo, RttmSegment.applyField, RttmSegment.defaultSeg,
        hn, hx, hy]
    | cons k rest2 => simp at hlen
  · -- more than ten fields
    obtain ⟨n, hn⟩ := Option.isSome_iff_exists.mp (hnum.1 c rfl)
    obtain ⟨x, hx⟩ := Option.isSome_iff_exists.mp (hnum.2.1 d rfl)
    obtain ⟨y, hy⟩ := Option.isSome_iff_exists.mp (hnum.2.2 e rfl)
    cases rest with
    | nil => simp at hlen
    | cons k rest2 =>
      simp [RttmSegment.fromStrGo, RttmSegment.applyField, hn, hx, hy]
  · -- zero fields: impossible, split never returns an empty list of pieces
    exact absurd hsplit (by
      intro hh
      have : (splitOnChar ' ' line).length = 0 := by rw [hh]; rfl
      revert this
      induction line with
      | nil => simp [splitOnChar]
      | cons x xs ih =>
        rw [splitOnChar]
        split
        · simp
        · split <;> simp_all)
  · -- one field
    refine ⟨⟨a, [], 0, 0, 0, [], [], [], [], []⟩, ?_, ?_⟩
    · simp [RttmSegment.fromStrGo, RttmSegment.applyField, RttmSegment.defaultSeg]
    · simp [defaultFrom]
  · -- two fields
    refine ⟨⟨a, b, 0, 0, 0, [], [], [], [], []⟩, ?_, ?_⟩
    · simp [RttmSegment.fromStrGo, RttmSegment.applyField, RttmSegment.defaultSeg]
    · simp [defaultFrom]
  · -- three fields
    obtain ⟨n, hn⟩ := Option.isSome_iff_exists.mp (hnum.1 c rfl)
    refine ⟨⟨a, b, n, 0, 0, [], [], [], [], []⟩, ?_, ?_⟩
    · simp [RttmSegment.fromStrGo, RttmSegment.applyField, RttmSegment.defaultSeg, hn]
    · simp [defaultFrom]
  · -- four fields
    obtain ⟨n, hn⟩ := Option.isSome_iff_exists.mp (hnum.1 c rfl)
    obtain ⟨x, hx⟩ := Option.isSome_iff_exists.mp (hnum.2.1 d rfl)
    refine ⟨⟨a, b, n, x, 0, [], [], [], [], []⟩, ?_, ?_⟩
    · simp [RttmSegment.fromStrGo, RttmSegment.applyField, RttmSegment.defaultSeg,
        hn, hx]
    · simp [defaultFrom]
  · -- five fields
    obtain ⟨n, hn⟩ := Option.isSome_iff_exists.mp (hnum.1 c rfl)
    obtain ⟨x, hx⟩ := Option.isSome_iff_exists.mp (hnum.2.1 d rfl)
    obtain ⟨y, hy⟩ := Option.isSome_iff_exists.mp (hnum.2.2 e rfl)
    refine ⟨⟨a, b, n, x, y, [], [], [], [], []⟩, ?_, ?_⟩
    · simp [RttmSegment.fromStrGo, RttmSegment.applyField, RttmSegment.defaultSeg,
        hn, hx, hy]
    · simp [defaultFrom]
  · -- six fields
    obtain ⟨n, hn⟩ := Option.isSome_iff_exists.mp (hnum.1 c rfl)
    obtain ⟨x, hx⟩ := Option.isSome_iff_exists.mp (hnum.2.1 d rfl)
    obtain ⟨y, hy⟩ := Option.isSome_iff_exists.mp (hnum.2.2 e rfl)
    refine ⟨⟨a, b, n, x, y, f, [], [], [], []⟩, ?_, ?_⟩
    · simp [RttmSegment.fromStrGo, RttmSegment.applyField, RttmSegment.defaultSeg,
        hn, hx, hy]
    · simp [defaultFrom]
  · -- seven fields
    obtain ⟨n, hn⟩ := Option.isSome_iff_exists.mp (hnum.1 c rfl)
    obtain ⟨x, hx⟩ := Option.isSome_iff_exists.mp (hnum.2.1 d rfl)
    obtain ⟨y, hy⟩ := Option.isSome_iff_exists.mp (hnum.2.2 e rfl)
    refine ⟨⟨a, b, n, x, y, f, g, [], [], []⟩, ?_, ?_⟩
    · simp [RttmSegment.fromStrGo, RttmSegment.applyField, RttmSegment.defaultSeg,
        hn, hx, hy]
    · simp [defaultFrom]
  · -- eight fields
    obtain ⟨n, hn⟩ := Option.isSome_iff_exists.mp (hnum.1 c rfl)
    obtain ⟨x, hx⟩ := Option.isSome_iff_exists.mp (hnum.2.1 d rfl)
    obtain ⟨y, hy⟩ := Option.isSome_iff_exists.mp (hnum.2.2 e rfl)
    refine ⟨⟨a, b, n, x, y, f, g, h1, [], []⟩, ?_, ?_⟩
    · simp [RttmSegment.fromStrGo, RttmSegment.applyField, RttmSegment.defaultSeg,
        hn, hx, hy]
    · simp [defaultFrom]
  · -- nine fields
    obtain ⟨n, hn⟩ := Option.isSome_iff_exists.mp (hnum.1 c rfl)
    obtain ⟨x, hx⟩ := Option.isSome_iff_exists.mp (hnum.2.1 d rfl)
    obtain ⟨y, hy⟩ := Option.isSome_iff_exists.mp (hnum.2.2 e rfl)
    refine ⟨⟨a, b, n, x, y, f, g, h1, i1, []⟩, ?_, ?_⟩
    · simp [RttmSegment.fromStrGo, RttmSegment.applyField, RttmSegment.defaultSeg,
        hn, hx, hy]
    · simp [defaultFrom]

/-- Witness for C2: the amended theorem applied to a concrete eleven-field
line with well-typed numeric fields, yielding alignment index 11. -/
theorem claim_C2_witness :
    RttmSegment.from_str ("a b 1 1.5 2.5 c d e f g h".toList) =
      Except.error (RttmError.SegmentAlignmentError 11) :=
  claim_C2.2.1 ("a b 1 1.5 2.5 c d e f g h".toList)
    ["a".toList, "b".toList, "1".toList, "1.5".toList,
      "2.5".toList, "c".toList, "d".toList, "e".toList,
      "f".toList, "g".toList, "h".toList]
    (by decide) (by decide)
    ⟨by intro v hv; injection hv with h; subst h; decide,
      by intro v hv; injection hv with h; subst h; decide,
      by intro v hv; injection hv with h; subst h; decide⟩

/-- C3: per-line semantics of `Rttm::read`.  With `continue_on_error` set, a
line whose read fails at the I/O level is skipped silently; a line that reads
but fails to parse aborts the whole read with that parse error even with the
flag set; without the flag, the first I/O failure aborts the read with
`IOError`; and when every line reads and parses, the parsed segments
accumulate in line order. -/
theorem claim_C3 :
    (∀ (e : ℕ) rest, Rttm.read true (Except.error e :: rest) = Rttm.read true rest) ∧
    (∀ line rest pe, RttmSegment.from_str line = Except.error pe →
      Rttm.read true (Except.ok line :: rest) = Except.error pe) ∧
    (∀ (e : ℕ) rest, Rttm.read false (Except.error e :: rest) =
      Except.error (RttmError.IOError e)) ∧
    (∀ (coe : Bool) (ls : List Str) (segs : List RttmSegment),
      List.Forall₂ (fun l s => RttmSegment.from_str l = Except.ok s) ls segs →
      Rttm.read coe (ls.map Except.ok) = Except.ok segs) := by
  refine ⟨?_, ?_, ?_, ?_⟩
  · intro e rest
    simp [Rttm.read]
  · intro line rest pe hpe
    simp [Rttm.read, hpe]
  · intro e rest
    simp [Rttm.read]
  · intro coe ls segs hall
    induction hall with
    | nil => simp [Rttm.read]
    | cons h1 htail ih =>
      simp [Rttm.read, h1, ih, Except.map]

/-- Witness for C3: a successfully read line that fails to parse aborts the
read with that parse error even under `continue_on_error`. -/
theorem claim_C3_witness :
    Rttm.read true [Except.ok ("a b c".toList)] =
      Except.error RttmError.ParseIntError :=
  claim_C3.2.1 ("a b c".toList) [] RttmError.ParseIntError (by rfl)

/-! Helper lemmas for the collection aggregates. -/

theorem sum_map_add (N : List Str) (f g : Str → ℚ) :
    (N.map (fun n => f n + g n)).sum = (N.map f).sum + (N.map g).sum := by
  induction N with
  | nil => simp
  | cons m N ih =>
    simp only [List.map_cons, List.sum_cons, ih]
    ring

theorem sum_map_zero_of_not_mem {N : List Str} {x : Str} (hx : x ∉ N) (d : ℚ) :
    (N.map (fun n => if x = n then d else 0)).sum = 0 := by
  induction N with
  | nil => simp
  | cons m N ih =>
    have hxm : x ≠ m := fun hh => hx (hh ▸ List.mem_cons_self m N)
    have hxN : x ∉ N := fun hh => hx (List.mem_cons_of_mem m hh)
    simp [hxm, ih hxN]

theorem sum_map_ite_eq {N : List Str} (hN : N.Nodup) {x : Str} (hx : x ∈ N) (d : ℚ) :
    (N.map (fun n => if x = n then d else 0)).sum = d := by
  induction N with
  | nil => exact absurd hx (List.not_mem_nil x)
  | cons m N ih =>
    rcases List.mem_cons.1 hx with rfl | hxN
    · have hxN : x ∉ N := (List.nodup_cons.1 hN).1
      simp [sum_map_zero_of_not_mem hxN d]
    · have hxm : x ≠ m := by
        rintro rfl
        exact (List.nodup_cons.1 hN).1 hxN
      simp only [List.map_cons, List.sum_cons, if_neg hxm]
      rw [ih (List.nodup_cons.1 hN).2 hxN]
      ring

theorem duration_speaker_cons (s : RttmSegment) (segs : List RttmSegment) (n : Str) :
    Rttm.duration_speaker (s :: segs) n =
      (if s.speaker_name = n then s.turn_duration else 0) +
        Rttm.duration_speaker segs n := by
  unfold Rttm.duration_speaker
  rw [List.filterMap_cons]
  split
  · simp_all
  · simp_all

theorem sum_speakers_eq_total (N : List Str) (segs : List RttmSegment)
    (hN : N.Nodup) (hcover : ∀ s ∈ segs, s.speaker_name ∈ N) :
    (N.map (Rttm.duration_speaker segs)).sum = Rttm.duration_total segs := by
  induction segs with
  | nil =>
    rw [show N.map (Rttm.duration_speaker []) = N.map (fun _ => (0 : ℚ)) from
      List.map_congr_left (fun n _ => rfl)]
    simp [Rttm.duration_total]
  | cons s segs ih =>
    have hname : s.speaker_name ∈ N := hcover s (List.mem_cons_self s segs)
    have hcov2 : ∀ t ∈ segs, t.speaker_name ∈ N :=
      fun t ht => hcover t (List.mem_cons_of_mem s ht)
    have hmap : N.map (Rttm.duration_speaker (s :: segs)) =
        N.map (fun n => (if s.speaker_name = n then s.turn_duration else 0) +
          Rttm.duration_speaker segs n) :=
      List.map_congr_left (fun n _ => duration_speaker_cons s segs n)
    rw [hmap, sum_map_add, sum_map_ite_eq hN hname, ih hcov2]
    simp [Rttm.duration_total]

theorem strLe_trans : ∀ (a b c : Str), Rttm.strLe a b = true → Rttm.strLe b c = true →
    Rttm.strLe a c = true
  | [], _, _, _, _ => rfl
  | _ :: _, [], _, h, _ => by simp [Rttm.strLe] at h
  | _ :: _, _ :: _, [], _, h => by simp [Rttm.strLe] at h
  | x :: as, y :: bs, z :: cs, h1, h2 => by
    simp only [Rttm.strLe] at h1 h2 ⊢
    by_cases hxy : x.toNat < y.toNat
    · by_cases hyz : y.toNat < z.toNat
      · rw [if_pos (by omega)]
      · by_cases hzy : z.toNat < y.toNat
        · rw [if_neg hyz, if_pos hzy] at h2
          exact absurd h2 (by simp)
        · rw [if_pos (by omega)]
    · by_cases hyx : y.toNat < x.toNat
      · rw [if_neg hxy, if_pos hyx] at h1
        exact absurd h1 (by simp)
      · rw [if_neg hxy, if_neg hyx] at h1
        by_cases hyz : y.toNat < z.toNat
        · rw [if_pos (by omega)]
        · by_cases hzy : z.toNat < y.toNat
          · rw [if_neg hyz, if_pos hzy] at h2
            exact absurd h2 (by simp)
          · rw [if_neg hyz, if_neg hzy] at h2
            rw [if_neg (by omega), if_neg (by omega)]
            exact strLe_trans as bs cs h1 h2

theorem strLe_total : ∀ (a b : Str), (Rttm.strLe a b || Rttm.strLe b a) = true
  | [], _ => by simp [Rttm.strLe]
  | _ :: _, [] => by simp [Rttm.strLe]
  | x :: as, y :: bs => by
    simp only [Rttm.strLe]
    by_cases hxy : x.toNat < y.toNat
    · simp [hxy]
    · by_cases hyx : y.toNat < x.toNat
      · simp [hxy, hyx]
      · simp only [if_neg hxy, if_neg hyx]
        exact strLe_total as bs

/-- C4: the total duration over a collection equals the sum, over the
distinct speakers returned by `speakers`, of the per-speaker durations.
Durations are the stored `turn_duration` values in the exact rational model
of `f64`. -/
theorem claim_C4 (segs : List RttmSegment) :
    Rttm.duration_total segs =
      ((Rttm.speakers segs).map (Rttm.duration_speaker segs)).sum := by
  refine (sum_speakers_eq_total (Rttm.speakers segs) segs ?_ ?_).symm
  · have hperm := List.mergeSort_perm
      ((segs.map (fun s => s.speaker_name)).dedup) Rttm.strLe
    exact (List.Perm.nodup_iff hperm).2 (List.nodup_dedup _)
  · intro s hs
    unfold Rttm.speakers
    rw [List.mem_mergeSort, List.mem_dedup]
    exact List.mem_map_of_mem (fun t => t.speaker_name) hs

/-- C5: `del` on an out-of-range index returns `none` and leaves the
collection unchanged; on a valid index it returns the segment at that
position and removes it, shifting the later elements down one place
(order-preserving removal) and shrinking the length by exactly one. -/
theorem claim_C5 (segs : List RttmSegment) (i : ℕ) :
    (segs.length ≤ i → Rttm.del segs i = (none, segs)) ∧
    (∀ h : i < segs.length,
      (Rttm.del segs i).1 = some (segs.get ⟨i, h⟩) ∧
      (Rttm.del segs i).2 = segs.take i ++ segs.drop (i + 1) ∧
      (Rttm.del segs i).2.length + 1 = segs.length) := by
  constructor
  · intro hle
    unfold Rttm.del
    rw [List.getElem?_eq_none hle]
  · intro h
    unfold Rttm.del
    rw [List.getElem?_eq_getElem h]
    refine ⟨by simp, ?_, ?_⟩
    · simpa using List.eraseIdx_eq_take_drop_succ segs i
    · simp only [List.length_eraseIdx_of_lt h]
      omega

/-- C6: every element of `filter` has exactly the requested speaker name,
the filtered collection is a sublist of the source (hence preserves relative
order), and its length never exceeds the source length.  The filtered
collection is a fresh list of copies in the model, so mutation independence
holds by construction. -/
theorem claim_C6 (segs : List RttmSegment) (sp : Str) :
    (∀ s ∈ Rttm.filter segs sp, s.speaker_name = sp) ∧
    (Rttm.filter segs sp).Sublist segs ∧
    (Rttm.filter segs sp).length ≤ segs.length := by
  refine ⟨?_, List.filter_sublist segs, List.length_filter_le _ segs⟩
  intro s hs
  have hmem := List.of_mem_filter hs
  exact beq_iff_eq.mp hmem

/-- C7: `speakers` returns the lexicographically sorted deduplicated
sequence of the speaker names present, and `num_speakers` is the number of
distinct speaker names, which agrees with the length of `speakers`. -/
theorem claim_C7 (segs : List RttmSegment) :
    (Rttm.speakers segs).Pairwise (fun a b => Rttm.strLe a b = true) ∧
    (Rttm.speakers segs).Nodup ∧
    (∀ n, n ∈ Rttm.speakers segs ↔ n ∈ segs.map (fun s => s.speaker_name)) ∧
    Rttm.num_speakers segs = (segs.map (fun s => s.speaker_name)).toFinset.card ∧
    Rttm.num_speakers segs = (Rttm.speakers segs).length := by
  refine ⟨?_, ?_, ?_, ?_, ?_⟩
  · exact List.sorted_mergeSort strLe_trans strLe_total _
  · exact (List.Perm.nodup_iff (List.mergeSort_perm _ _)).2 (List.nodup_dedup _)
  · intro n
    unfold Rttm.speakers
    rw [List.mem_mergeSort, List.mem_dedup]
  · unfold Rttm.num_speakers
    rw [List.card_toFinset]
  · unfold Rttm.num_speakers Rttm.speakers
    rw [List.length_mergeSort]

theorem rustRound_close (q : ℚ) : |((RttmSegment.rustRound q : ℤ) : ℚ) - q| ≤ 1 / 2 := by
  unfold RttmSegment.rustRound
  split
  · have h1 : ((⌊q + 1 / 2⌋ : ℤ) : ℚ) ≤ q + 1 / 2 := Int.floor_le _
    have h2 : q + 1 / 2 - 1 < ((⌊q + 1 / 2⌋ : ℤ) : ℚ) := Int.sub_one_lt_floor _
    rw [abs_le]
    constructor <;> linarith
  · have h1 : (q - 1 / 2 : ℚ) ≤ ((⌈q - 1 / 2⌉ : ℤ) : ℚ) := Int.le_ceil _
    have h2 : ((⌈q - 1 / 2⌉ : ℤ) : ℚ) < q - 1 / 2 + 1 := Int.ceil_lt_add_one _
    rw [abs_le]
    constructor <;> linarith

/-- C8: `timespan` returns onset and onset plus duration in seconds;
`timespan_ms` returns those two values multiplied by 1000 and rounded to the
nearest integer (within one half); the example with onset 1.5 and duration
2.5 yields `timespan = (1.5, 4.0)` and `timespan_ms = (1500, 4000)`; and
`milliseconds` yields the duration as whole milliseconds, truncating any
sub-millisecond remainder (stated for durations that are whole numbers of
nanoseconds, so that the nanosecond rounding of `Duration::from_secs_f64`
is exact). -/
theorem claim_C8 :
    (∀ s : RttmSegment, RttmSegment.timespan s =
      (s.turn_onset, s.turn_onset + s.turn_duration)) ∧
    (∀ s : RttmSegment,
      |(((RttmSegment.timespan_ms s).1 : ℤ) : ℚ) - 1000 * s.turn_onset| ≤ 1 / 2 ∧
      |(((RttmSegment.timespan_ms s).2 : ℤ) : ℚ) -
        1000 * (s.turn_onset + s.turn_duration)| ≤ 1 / 2) ∧
    (RttmSegment.timespan ⟨[], [], 0, mkRat 3 2, mkRat 5 2, [], [], [], [], []⟩ =
        (3 / 2, 4) ∧
      RttmSegment.timespan_ms ⟨[], [], 0, mkRat 3 2, mkRat 5 2, [], [], [], [], []⟩ =
        (1500, 4000)) ∧
    (∀ s : RttmSegment, 0 ≤ s.turn_duration → s.turn_duration < 2 ^ 64 →
      (s.turn_duration * 10 ^ 9).den = 1 →
      RttmSegment.milliseconds s = some (⌊s.turn_duration * 1000⌋.toNat)) := by
  refine ⟨fun s => rfl, fun s => ⟨rustRound_close _, rustRound_close _⟩, ?_, ?_⟩
  · constructor
    · with_unfolding_all decide
    · with_unfolding_all decide
  · intro s h0 hlt hden
    have hq0 : (0 : ℚ) ≤ s.turn_duration * 10 ^ 9 := by positivity
    have hnum0 : 0 ≤ (s.turn_duration * 10 ^ 9).num := Rat.num_nonneg.2 hq0
    have hpz : (((s.turn_duration * 10 ^ 9).num.toNat : ℤ)) =
        (s.turn_duration * 10 ^ 9).num := Int.toNat_of_nonneg hnum0
    have hcast : (((s.turn_duration * 10 ^ 9).num.toNat : ℕ) : ℚ) =
        s.turn_duration * 10 ^ 9 := by
      have h1 : (((s.turn_duration * 10 ^ 9).num : ℤ) : ℚ) =
          s.turn_duration * 10 ^ 9 := by
        conv_rhs => rw [← Rat.num_div_den (s.turn_duration * 10 ^ 9)]
        rw [hden]
        simp
      rw [← hpz] at h1
      exact_mod_cast h1
    set p : ℕ := (s.turn_duration * 10 ^ 9).num.toNat with hp
    unfold RttmSegment.milliseconds RttmSegment.durationNanos
    rw [if_pos ⟨h0, hlt⟩]
    have hround : round (s.turn_duration * 10 ^ 9) = (p : ℤ) := by
      rw [← hcast]
      rw [show ((p : ℕ) : ℚ) = (((p : ℕ) : ℤ) : ℚ) by push_cast; ring]
      exact round_intCast _
    have hd1000 : s.turn_duration * 1000 = (p : ℚ) / 10 ^ 6 := by
      rw [eq_div_iff (by positivity)]
      linear_combination -hcast
    have hfloor : ⌊s.turn_duration * 1000⌋ = ((p / 10 ^ 6 : ℕ) : ℤ) := by
      rw [hd1000,
        show ((p : ℕ) : ℚ) / 10 ^ 6 = ((p : ℕ) : ℚ) / (((10 ^ 6 : ℕ)) : ℚ) by norm_num]
      exact Rat.floor_natCast_div_natCast p (10 ^ 6)
    rw [hround, hfloor]
    simp only [Option.map_some, Int.toNat_natCast]
    norm_num

/-- Witness for C5: deleting index 0 from a one-element collection returns
the element and shrinks the length to zero. -/
theorem claim_C5_witness :
    (Rttm.del [RttmSegment.defaultSeg] 0).2.length + 1 =
      [RttmSegment.defaultSeg].length :=
  ((claim_C5 [RttmSegment.defaultSeg] 0).2 (by decide)).2.2

/-- Witness for C6: in a filtered singleton collection, the surviving
element carries exactly the requested speaker name. -/
theorem claim_C6_witness :
    (⟨[], [], 0, 0, 0, [], [], ['x'], [], []⟩ : RttmSegment).speaker_name = ['x'] :=
  (claim_C6 [⟨[], [], 0, 0, 0, [], [], ['x'], [], []⟩] ['x']).1 _
    (by simp [Rttm.filter])

/-- Witness for C8: a segment with duration 2.5 seconds yields 2500 whole
milliseconds via the truncating conversion. -/
theorem claim_C8_witness :
    RttmSegment.milliseconds ⟨[], [], 0, 0, mkRat 5 2, [], [], [], [], []⟩ =
      some (⌊(mkRat 5 2 : ℚ) * 1000⌋.toNat) :=
  claim_C8.2.2.2 _ (by with_unfolding_all decide) (by with_unfolding_all decide)
    (by with_unfolding_all decide)

theorem applyField_error_classified : ∀ (seg : RttmSegment) (i : ℕ) (v : Str)
    (e : RttmError), RttmSegment.applyField seg i v = Except.error e →
    (∃ j, e = RttmError.SegmentAlignmentError j) ∨ e = RttmError.ParseIntError ∨
      e = RttmError.ParseFloatError
  | _, 0, _, _, h => by simp [RttmSegment.applyField] at h
  | _, 1, _, _, h => by simp [RttmSegment.applyField] at h
  | seg, 2, v, e, h => by
    unfold RttmSegment.applyField at h
    cases hp : parseUsize v <;> rw [hp] at h
    · cases h
      exact Or.inr (Or.inl rfl)
    · simp at h
  | seg, 3, v, e, h => by
    unfold RttmSegment.applyField at h
    cases hp : parseFloat v <;> rw [hp] at h
    · cases h
      exact Or.inr (Or.inr rfl)
    · simp at h
  | seg, 4, v, e, h => by
    unfold RttmSegment.applyField at h
    cases hp : parseFloat v <;> rw [hp] at h
    · cases h
      exact Or.inr (Or.inr rfl)
    · simp at h
  | _, 5, _, _, h => by simp [RttmSegment.applyField] at h
  | _, 6, _, _, h => by simp [RttmSegment.applyField] at h
  | _, 7, _, _, h => by simp [RttmSegment.applyField] at h
  | _, 8, _, _, h => by simp [RttmSegment.applyField] at h
  | _, 9, _, _, h => by simp [RttmSegment.applyField] at h
  | seg, n + 10, v, e, h => by
    unfold RttmSegment.applyField at h
    cases h
    exact Or.inl ⟨n + 10 + 1, rfl⟩

theorem fromStrGo_error_classified : ∀ (l : List Str) (seg : RttmSegment) (i : ℕ)
    (e : RttmError), RttmSegment.fromStrGo seg i l = Except.error e →
    (∃ j, e = RttmError.SegmentAlignmentError j) ∨ e = RttmError.ParseIntError ∨
      e = RttmError.ParseFloatError
  | [], _, _, _, h => by simp [RttmSegment.fromStrGo] at h
  | v :: rest, seg, i, e, h => by
    unfold RttmSegment.fromStrGo at h
    cases ha : RttmSegment.applyField seg i v with
    | ok s2 =>
      rw [ha] at h
      exact fromStrGo_error_classified rest s2 (i + 1) e h
    | error e2 =>
      rw [ha] at h
      injection h with h2
      subst h2
      exact applyField_error_classified seg i v e2 ha

/-- C9: `from_str` is total in the model — on every input it returns either
a segment or an error, and every error it returns is a
`SegmentAlignmentError`, `ParseIntError` or `ParseFloatError` (never an
`IOError`); in particular the empty string parses to the all-default
segment.  Totality without panics holds by construction: the source
function contains no panicking operation, which the model reflects as a
total Lean function. -/
theorem claim_C9 :
    (∀ line : Str,
      (∃ s, RttmSegment.from_str line = Except.ok s) ∨
      (∃ j, RttmSegment.from_str line =
        Except.error (RttmError.SegmentAlignmentError j)) ∨
      RttmSegment.from_str line = Except.error RttmError.ParseIntError ∨
      RttmSegment.from_str line = Except.error RttmError.ParseFloatError) ∧
    RttmSegment.from_str [] = Except.ok RttmSegment.defaultSeg := by
  constructor
  · intro line
    cases hfs : RttmSegment.from_str line with
    | ok s => exact Or.inl ⟨s, rfl⟩
    | error e =>
      have hgo : RttmSegment.fromStrGo RttmSegment.defaultSeg 0
          (splitOnChar ' ' line) = Except.error e := hfs
      rcases fromStrGo_error_classified _ _ _ _ hgo with ⟨j, rfl⟩ | rfl | rfl
      · exact Or.inr (Or.inl ⟨j, rfl⟩)
      · exact Or.inr (Or.inr (Or.inl rfl))
      · exact Or.inr (Or.inr (Or.inr rfl))
  · rfl

/-- C10: `milliseconds` (through `Duration::from_secs_f64`) panics on a
negative duration — modelled as `none` — and such segments are reachable
through the public interface, because `from_str` accepts any parseable
float, e.g. `-1.5`, for `turn_duration`.  (The `NaN` case lies outside the
rational model of `f64`.) -/
theorem claim_C10 :
    (∀ s : RttmSegment, s.turn_duration < 0 → RttmSegment.milliseconds s = none) ∧
    (∃ seg, RttmSegment.from_str ("SPEAKER f 1 1.5 -1.5 a b c d e".toList) =
        Except.ok seg ∧ seg.turn_duration < 0 ∧
        RttmSegment.milliseconds seg = none) := by
  constructor
  · intro s hneg
    unfold RttmSegment.milliseconds RttmSegment.durationNanos
    rw [if_neg (fun hc => absurd hc.1 (not_le.2 hneg))]
    rfl
  · refine ⟨⟨"SPEAKER".toList, ['f'], 1, mkRat 3 2, mkRat (-3) 2,
      ['a'], ['b'], ['c'], ['d'], ['e']⟩, ?_, ?_, ?_⟩
    · with_unfolding_all rfl
    · with_unfolding_all decide
    · with_unfolding_all decide

/-- Witness for C10: a segment with duration -1.5 panics in
`milliseconds`, modelled as `none`. -/
theorem claim_C10_witness :
    RttmSegment.milliseconds ⟨[], [], 0, 0, mkRat (-3) 2, [], [], [], [], []⟩ =
      none :=
  claim_C10.1 _ (by with_unfolding_all decide)
